import Mathlib

/-!
Verification of the sequential Bayesian posterior estimator
(`BayesianEstimation` and the `get_quantile` helper from the course
notebook).  Numeric values are embedded as rationals (`ℚ`), standing in
for the floating-point arrays of the source; a Python exception is
modelled as `Option.none`.  The float value `np.nan`, which the quantile
helper returns when its scan falls through, is likewise modelled as the
`none` value of `Option ℚ`, since `nan` is distinct from every real
number.
-/

namespace NotesBayes

/-- The estimator state.  Mirrors the fields set in
`BayesianEstimation.__init__`: the hypothesis array, the prior
distribution object (only its pmf matters), the prior pmf values, and the
list of stored distributions (`self.posteriors`). -/
structure BayesianEstimation where
  hypotheses : List ℚ
  prior_dist : ℚ → ℚ
  priors : List ℚ
  posteriors : List (List ℚ)

/-- `BayesianEstimation.__init__`: store the hypotheses and the
distribution, evaluate the pmf at each hypothesis, and initialize the
history as the one-element list holding the prior.  No normalization is
performed. -/
def init (hypotheses : List ℚ) (pmf : ℚ → ℚ) : BayesianEstimation :=
  let priors := hypotheses.map pmf
  { hypotheses := hypotheses
    prior_dist := pmf
    priors := priors
    posteriors := [priors] }

/-- Elementwise product of two one-dimensional numpy arrays, with numpy's
broadcasting rule: equal lengths multiply elementwise, a length-one array
broadcasts against the other, and any other combination raises a
`ValueError` (modelled as `none`). -/
def broadcastMul (a b : List ℚ) : Option (List ℚ) :=
  if a.length = b.length then some (List.zipWith (fun x y => x * y) a b)
  else if a.length = 1 then some (b.map (fun y => a.headI * y))
  else if b.length = 1 then some (a.map (fun x => x * b.headI))
  else none

/-- `BayesianEstimation.update`: append `posteriors[-1] * likelihood` to
the history, then replace that last entry by itself divided by its sum,
and return the last entry.  The division is numpy's elementwise `/`; in
the degenerate case `sum = 0` the rational convention `x / 0 = 0` stands
in for the float result `nan`.  Returns the new state together with the
returned array; `none` models the `ValueError` a shape mismatch raises
(before any mutation) or the `IndexError` an empty history would raise. -/
def update (est : BayesianEstimation) (likelihood : List ℚ) :
    Option (BayesianEstimation × List ℚ) :=
  match est.posteriors.getLast? with
  | none => none
  | some last =>
    match broadcastMul last likelihood with
    | none => none
    | some unnorm =>
      let appended := est.posteriors ++ [unnorm]
      let total := unnorm.sum
      let normalized := unnorm.map (fun x => x / total)
      some ({ est with posteriors := appended.dropLast ++ [normalized] },
            normalized)

/-- A sequence of `update` calls, stopping at the first error. -/
def updates (est : BayesianEstimation) :
    List (List ℚ) → Option BayesianEstimation
  | [] => some est
  | L :: Ls =>
    match update est L with
    | none => none
    | some (est', _) => updates est' Ls

/-- The loop of `get_quantile`: accumulate probabilities row by row and
return the row's hypothesis as soon as the accumulator reaches the
desired probability. -/
def quantileLoop (p : ℚ) : ℚ → List (ℚ × ℚ) → Option ℚ
  | _, [] => none
  | acc, r :: rs =>
    if p ≤ acc + r.1 then some r.2 else quantileLoop p (acc + r.1) rs

/-- `get_quantile`: a row is a (probability, hypothesis) pair, in
hypothesis order; the accumulator starts at `0.0`; the fall-through
`return np.nan` is the `none` value. -/
def get_quantile (rows : List (ℚ × ℚ)) (desired_prob : ℚ) : Option ℚ :=
  quantileLoop desired_prob 0 rows

/-- Cumulative probability mass of the first `k` rows. -/
def prefixSum (rows : List (ℚ × ℚ)) (k : ℕ) : ℚ :=
  ((rows.take k).map Prod.fst).sum

/-- The rows of the uniform posterior over ten hypotheses. -/
def uniformRows : List (ℚ × ℚ) :=
  [(1/10, 1), (1/10, 2), (1/10, 3), (1/10, 4), (1/10, 5),
   (1/10, 6), (1/10, 7), (1/10, 8), (1/10, 9), (1/10, 10)]

/-! ### Helper lemmas about `update` and `updates` -/

lemma broadcastMul_of_length_eq (a b : List ℚ) (h : a.length = b.length) :
    broadcastMul a b = some (List.zipWith (fun x y => x * y) a b) := by
  simp [broadcastMul, h]

lemma update_eq (est : BayesianEstimation) (P L u : List ℚ)
    (hlast : est.posteriors.getLast? = some P)
    (hmul : broadcastMul P L = some u) :
    update est L =
      some ({ est with
                posteriors := est.posteriors ++ [u.map (fun x => x / u.sum)] },
            u.map (fun x => x / u.sum)) := by
  simp [update, hlast, hmul, List.dropLast_concat]

lemma update_some_inv (est est' : BayesianEstimation) (L r : List ℚ)
    (h : update est L = some (est', r)) :
    ∃ P u, est.posteriors.getLast? = some P ∧ broadcastMul P L = some u ∧
      r = u.map (fun x => x / u.sum) ∧
      est' = { est with posteriors := est.posteriors ++ [r] } := by
  cases hl : est.posteriors.getLast? with
  | none => simp [update, hl] at h
  | some P =>
    cases hm : broadcastMul P L with
    | none => simp [update, hl, hm] at h
    | some u =>
      rw [update_eq est P L u hl hm] at h
      simp only [Option.some.injEq, Prod.mk.injEq] at h
      obtain ⟨h1, h2⟩ := h
      exact ⟨P, u, rfl, hm, h2.symm, by rw [← h1, ← h2]⟩

lemma update_frame (est est' : BayesianEstimation) (L r : List ℚ)
    (h : update est L = some (est', r)) :
    est'.posteriors = est.posteriors ++ [r] ∧
    est'.hypotheses = est.hypotheses ∧
    est'.priors = est.priors ∧
    est'.prior_dist = est.prior_dist := by
  obtain ⟨P, u, _, _, _, hest⟩ := update_some_inv est est' L r h
  subst hest
  exact ⟨rfl, rfl, rfl, rfl⟩

lemma sum_map_div (l : List ℚ) (t : ℚ) :
    (l.map (fun x => x / t)).sum = l.sum / t := by
  induction l with
  | nil => simp
  | cons a l ih => simp [ih, add_div]

lemma update_ret_sum (est est' : BayesianEstimation) (L r : List ℚ)
    (h : update est L = some (est', r)) : r.sum = 0 ∨ r.sum = 1 := by
  obtain ⟨P, u, _, _, hr, _⟩ := update_some_inv est est' L r h
  subst hr
  rcases eq_or_ne u.sum 0 with h0 | h0
  · left; simp [sum_map_div, h0]
  · right; simp [sum_map_div, div_self h0]

lemma updates_posteriors_append (Ls : List (List ℚ))
    (est est' : BayesianEstimation) (h : updates est Ls = some est') :
    ∃ tail, est'.posteriors = est.posteriors ++ tail ∧
      est'.hypotheses = est.hypotheses ∧ est'.priors = est.priors := by
  induction Ls generalizing est with
  | nil =>
    simp [updates] at h
    subst h
    exact ⟨[], by simp⟩
  | cons L Ls ih =>
    rw [updates] at h
    cases hu : update est L with
    | none => rw [hu] at h; simp at h
    | some p =>
      rw [hu] at h
      obtain ⟨tail, ht, hh, hp⟩ := ih p.1 h
      obtain ⟨h1, h2, h3, _⟩ := update_frame est p.1 L p.2 hu
      exact ⟨p.2 :: tail, by rw [ht, h1]; simp, by rw [hh, h2], by rw [hp, h3]⟩

lemma updates_length (Ls : List (List ℚ)) (est est' : BayesianEstimation)
    (h : updates est Ls = some est') :
    est'.posteriors.length = est.posteriors.length + Ls.length := by
  induction Ls generalizing est with
  | nil => simp [updates] at h; subst h; simp
  | cons L Ls ih =>
    rw [updates] at h
    cases hu : update est L with
    | none => rw [hu] at h; simp at h
    | some p =>
      rw [hu] at h
      have h1 := (update_frame est p.1 L p.2 hu).1
      have := ih p.1 h
      rw [this, h1]
      simp
      omega

/-! ### Helper lemmas about the quantile scan -/

lemma prefixSum_zero (rows : List (ℚ × ℚ)) : prefixSum rows 0 = 0 := by
  simp [prefixSum]

lemma prefixSum_cons (r : ℚ × ℚ) (rs : List (ℚ × ℚ)) (k : ℕ) :
    prefixSum (r :: rs) (k + 1) = r.1 + prefixSum rs k := by
  simp [prefixSum]

lemma quantileLoop_found (p : ℚ) (rows : List (ℚ × ℚ)) (acc : ℚ) (k : ℕ)
    (hk : k < rows.length)
    (hreach : p ≤ acc + prefixSum rows (k + 1))
    (hfirst : ∀ j, j < k → acc + prefixSum rows (j + 1) < p) :
    quantileLoop p acc rows = some ((rows.get ⟨k, hk⟩).2) := by
  induction rows generalizing acc k with
  | nil => simp at hk
  | cons r rs ih =>
    cases k with
    | zero =>
      rw [prefixSum_cons, prefixSum_zero] at hreach
      simp only [add_zero] at hreach
      rw [quantileLoop, if_pos (by linarith)]
      simp
    | succ k =>
      have hlt : acc + r.1 < p := by
        have := hfirst 0 (Nat.succ_pos k)
        rw [prefixSum_cons, prefixSum_zero] at this
        linarith
      rw [quantileLoop, if_neg (by linarith)]
      have hk' : k < rs.length := by simpa using hk
      have hreach' : p ≤ (acc + r.1) + prefixSum rs (k + 1) := by
        rw [prefixSum_cons] at hreach
        linarith
      have hfirst' : ∀ j, j < k → (acc + r.1) + prefixSum rs (j + 1) < p := by
        intro j hj
        have := hfirst (j + 1) (by omega)
        rw [prefixSum_cons] at this
        linarith
      have := ih (acc + r.1) k hk' hreach' hfirst'
      rw [this]
      rfl

lemma quantileLoop_none (p : ℚ) (rows : List (ℚ × ℚ)) (acc : ℚ)
    (h : ∀ k, k ≤ rows.length → acc + prefixSum rows k < p) :
    quantileLoop p acc rows = none := by
  induction rows generalizing acc with
  | nil => rfl
  | cons r rs ih =>
    have h1 : acc + r.1 < p := by
      have := h 1 (by simp)
      rw [prefixSum_cons, prefixSum_zero] at this
      linarith
    rw [quantileLoop, if_neg (by linarith)]
    refine ih (acc + r.1) ?_
    intro k hk
    have := h (k + 1) (by simpa using hk)
    rw [prefixSum_cons] at this
    linarith

/-! ### Helper lemmas for order independence and zero absorption -/

lemma zipWith_map_div (t : ℚ) (u L : List ℚ) :
    List.zipWith (fun x y => x * y) (u.map (fun x => x / t)) L =
      (List.zipWith (fun x y => x * y) u L).map (fun x => x / t) := by
  induction u generalizing L with
  | nil => simp
  | cons a u ih =>
    cases L with
    | nil => simp
    | cons b L => simp [ih, div_mul_eq_mul_div]

lemma div_div_of_ne (x t S : ℚ) (ht : t ≠ 0) : (x / t) / (S / t) = x / S := by
  rcases eq_or_ne S 0 with h | h
  · simp [h]
  · field_simp

lemma map_div_div (v : List ℚ) (t S : ℚ) (ht : t ≠ 0) :
    (v.map (fun x => x / t)).map (fun x => x / (S / t)) =
      v.map (fun x => x / S) := by
  rw [List.map_map]
  exact List.map_congr_left fun x _ => div_div_of_ne x t S ht

lemma zipWith_mul_right_comm (P L1 L2 : List ℚ) :
    List.zipWith (fun x y => x * y) (List.zipWith (fun x y => x * y) P L1) L2 =
      List.zipWith (fun x y => x * y) (List.zipWith (fun x y => x * y) P L2) L1 := by
  induction P generalizing L1 L2 with
  | nil => simp
  | cons a P ih =>
    cases L1 with
    | nil => simp
    | cons b L1 =>
      cases L2 with
      | nil => simp
      | cons c L2 => simp [ih, mul_right_comm]

lemma zipWith_mul_zero_at (P L : List ℚ) (i : ℕ)
    (hlen : L.length = P.length) (hz : P[i]? = some 0) :
    (List.zipWith (fun x y => x * y) P L)[i]? = some 0 := by
  induction P generalizing L i with
  | nil => simp at hz
  | cons a P ih =>
    cases L with
    | nil => simp at hlen
    | cons b L =>
      cases i with
      | zero =>
        simp at hz
        simp [hz]
      | succ i =>
        simp at hz hlen
        simpa using ih L i hlen hz

/-! ### Claim theorems -/

/-- Claim C1: when the last stored posterior is `P` and the likelihood `L`
has the same length with `(P * L).sum` positive (hence finite), `update`
multiplies elementwise, normalizes by the total, appends the normalized
array to the history, and returns that same newly appended array. -/
theorem update_multiplies_normalizes_appends_returns
    (est : BayesianEstimation) (P L : List ℚ)
    (hlast : est.posteriors.getLast? = some P)
    (hlen : L.length = P.length)
    (hpos : 0 < (List.zipWith (fun x y => x * y) P L).sum) :
    ∃ est' r, update est L = some (est', r) ∧
      r = (List.zipWith (fun x y => x * y) P L).map
        (fun x => x / (List.zipWith (fun x y => x * y) P L).sum) ∧
      est'.posteriors = est.posteriors ++ [r] := by
  have hmul := broadcastMul_of_length_eq P L hlen.symm
  exact ⟨_, _, update_eq est P L _ hlast hmul, rfl, rfl⟩

/-- Witness for C1 at a concrete estimator and likelihood. -/
theorem update_multiplies_normalizes_appends_returns_witness :
    ∃ est' r, update (init [1, 2] (fun _ => (1 : ℚ))) [2, 2] = some (est', r) ∧
      r = (List.zipWith (fun x y => x * y) [(1 : ℚ), 1] [2, 2]).map
        (fun x => x / (List.zipWith (fun x y => x * y) [(1 : ℚ), 1] [2, 2]).sum) ∧
      est'.posteriors = (init [1, 2] (fun _ => (1 : ℚ))).posteriors ++ [r] :=
  update_multiplies_normalizes_appends_returns
    (init [1, 2] (fun _ => (1 : ℚ))) [1, 1] [2, 2]
    (by norm_num [init]) (by norm_num) (by norm_num)

/-- Claim C2 counterexample: updating with the all-zeros likelihood does not
signal any error (the result is `some`, not the `none` that models a raised
exception) and the history grows from length 1 to length 2 instead of
staying unchanged. -/
theorem update_all_zeros_no_error_cex :
    (update (init [1, 2] (fun _ => (1 : ℚ))) [0, 0]).isSome = true ∧
    (update (init [1, 2] (fun _ => (1 : ℚ))) [0, 0]).map
      (fun x => x.1.posteriors.length) = some 2 := by
  constructor <;> norm_num [update, init, broadcastMul]

/-- Claim C2 amended: `update` performs no degeneracy check; with an
all-zeros likelihood of matching length it succeeds, appends the degenerate
entry (`nan` in the float code) and grows the history by one. -/
theorem update_all_zeros_appends
    (est : BayesianEstimation) (P : List ℚ)
    (hlast : est.posteriors.getLast? = some P) :
    ∃ est' r, update est (List.replicate P.length 0) = some (est', r) ∧
      est'.posteriors.length = est.posteriors.length + 1 := by
  have hmul := broadcastMul_of_length_eq P (List.replicate P.length 0) (by simp)
  exact ⟨_, _, update_eq est P _ _ hlast hmul, by simp⟩

/-- Witness for the amended C2 at a concrete estimator. -/
theorem update_all_zeros_appends_witness :
    ∃ est' r, update (init [1, 2] (fun _ => (1 : ℚ)))
        (List.replicate [(1 : ℚ), 1].length 0) = some (est', r) ∧
      est'.posteriors.length =
        (init [1, 2] (fun _ => (1 : ℚ))).posteriors.length + 1 :=
  update_all_zeros_appends (init [1, 2] (fun _ => (1 : ℚ))) [1, 1]
    (by norm_num [init])

/-- Claim C3 counterexample: an estimator constructed over hypotheses that
do not cover the prior distribution's support stores a prior (index 0)
whose sum is 1/2, far outside the 1e-9 tolerance around 1. -/
theorem prior_sum_not_one_cex :
    ¬ (∀ s ∈ (init [1] (fun _ => (1 : ℚ) / 2)).posteriors,
        |s.sum - 1| ≤ 1 / 1000000000) := by
  intro h
  have := h [1 / 2] (by simp [init])
  rw [show ([(1 : ℚ) / 2].sum) = 1 / 2 by norm_num] at this
  rw [abs_of_nonpos (by norm_num)] at this
  norm_num at this

/-- Claim C3 amended: every snapshot appended by an `update` sums exactly
to 1 when its normalization total is nonzero, and to 0 in the degenerate
zero-total case (`nan` in the float code); the prior at index 0 is the raw
pmf values and need not sum to 1. -/
theorem appended_snapshots_sum_zero_or_one
    (Ls : List (List ℚ)) (est est' : BayesianEstimation)
    (h : updates est Ls = some est') :
    ∀ s ∈ est'.posteriors.drop est.posteriors.length, s.sum = 0 ∨ s.sum = 1 := by
  induction Ls generalizing est with
  | nil =>
    simp [updates] at h
    subst h
    simp
  | cons L Ls ih =>
    rw [updates] at h
    cases hu : update est L with
    | none => rw [hu] at h; simp at h
    | some p =>
      rw [hu] at h
      have hfr := (update_frame est p.1 L p.2 hu).1
      have hsum := update_ret_sum est p.1 L p.2 hu
      obtain ⟨tail, htail, _, _⟩ := updates_posteriors_append Ls p.1 est' h
      intro s hs
      have hdrop : est'.posteriors.drop est.posteriors.length = p.2 :: tail := by
        rw [htail, hfr, List.append_assoc]
        simpa using List.drop_left est.posteriors ([p.2] ++ tail)
      rw [hdrop] at hs
      rcases List.mem_cons.mp hs with h1 | h1
      · subst h1; exact hsum
      · have htail' : est'.posteriors.drop p.1.posteriors.length = tail := by
          rw [htail]; exact List.drop_left _ _
        exact ih p.1 h s (by rw [htail']; exact h1)

/-- Witness for the amended C3 on a concrete one-update run: the snapshot
the update appended sums to 0 or 1. -/
theorem appended_snapshots_sum_zero_or_one_witness :
    [(1 : ℚ)/2, 1/2].sum = 0 ∨ [(1 : ℚ)/2, 1/2].sum = 1 :=
  appended_snapshots_sum_zero_or_one [[1, 1]] (init [1, 2] (fun _ => (1 : ℚ)))
    { hypotheses := [1, 2], prior_dist := fun _ => (1 : ℚ),
      priors := [1, 1], posteriors := [[1, 1], [1/2, 1/2]] }
    (by norm_num [updates, update, init, broadcastMul])
    [1/2, 1/2] (by norm_num [init])

/-- Claim C6 counterexample: a likelihood of length 1 against a length-2
posterior does not match the hypothesis-set length, yet `update` succeeds
(numpy broadcasting) and the history grows, contradicting the claimed
fail-fast with unchanged history. -/
theorem update_length_mismatch_broadcast_cex :
    (update (init [1, 2] (fun _ => (1 : ℚ))) [3]).isSome = true ∧
    (update (init [1, 2] (fun _ => (1 : ℚ))) [3]).map
      (fun x => x.1.posteriors.length) = some 2 := by
  constructor <;> norm_num [update, init, broadcastMul]

/-- Claim C6 amended: `update` has no explicit length check; when the
likelihood length differs from the current posterior length and neither is
1, the elementwise multiply raises a broadcasting error before the append
(modelled as `none`, history untouched); a length-1 array instead
broadcasts and the update succeeds with no error. -/
theorem update_incompatible_length_errors
    (est : BayesianEstimation) (P L : List ℚ)
    (hlast : est.posteriors.getLast? = some P)
    (h1 : L.length ≠ P.length) (h2 : L.length ≠ 1) (h3 : P.length ≠ 1) :
    update est L = none := by
  have hmul : broadcastMul P L = none := by
    rw [broadcastMul, if_neg (Ne.symm h1), if_neg h3, if_neg h2]
  simp [update, hlast, hmul]

/-- Witness for the amended C6 at a concrete incompatible shape. -/
theorem update_incompatible_length_errors_witness :
    update (init [1, 2] (fun _ => (1 : ℚ))) [1, 1, 1] = none :=
  update_incompatible_length_errors (init [1, 2] (fun _ => (1 : ℚ)))
    [1, 1] [1, 1, 1] (by norm_num [init]) (by norm_num) (by norm_num)
    (by norm_num)

/-- Claim C7: construction stores the single-element history `[prior]` and
each successful update appends exactly one entry, so after `k` successful
updates the history has length `k + 1`. -/
theorem history_length_after_updates
    (hyps : List ℚ) (pmf : ℚ → ℚ) (Ls : List (List ℚ))
    (est' : BayesianEstimation)
    (h : updates (init hyps pmf) Ls = some est') :
    est'.posteriors.length = Ls.length + 1 := by
  have := updates_length Ls (init hyps pmf) est' h
  simp [init] at this
  omega

/-- Witness for C7 on a concrete one-update run. -/
theorem history_length_after_updates_witness :
    ({ hypotheses := [1, 2], prior_dist := fun _ => (1 : ℚ),
       priors := [1, 1], posteriors := [[1, 1], [1/2, 1/2]] } :
     BayesianEstimation).posteriors.length = [[(1 : ℚ), 1]].length + 1 :=
  history_length_after_updates [1, 2] (fun _ => (1 : ℚ)) [[1, 1]] _
    (by norm_num [updates, update, init, broadcastMul])

/-- Claim C8: a successful `update` only appends: the previously stored
snapshots are an unchanged prefix of the new history, exactly one entry is
added, and the hypothesis set and stored priors are untouched. -/
theorem update_preserves_past_snapshots
    (est : BayesianEstimation) (P L : List ℚ)
    (hlast : est.posteriors.getLast? = some P)
    (hlen : L.length = P.length) :
    ∃ est' r, update est L = some (est', r) ∧
      est'.posteriors.take est.posteriors.length = est.posteriors ∧
      est'.posteriors.length = est.posteriors.length + 1 ∧
      est'.hypotheses = est.hypotheses ∧ est'.priors = est.priors := by
  have hmul := broadcastMul_of_length_eq P L hlen.symm
  refine ⟨_, _, update_eq est P L _ hlast hmul, ?_, by simp, rfl, rfl⟩
  simpa using List.take_left est.posteriors _

/-- Witness for C8 at a concrete estimator and likelihood. -/
theorem update_preserves_past_snapshots_witness :
    ∃ est' r, update (init [1, 2] (fun _ => (1 : ℚ))) [2, 2] = some (est', r) ∧
      est'.posteriors.take (init [1, 2] (fun _ => (1 : ℚ))).posteriors.length =
        (init [1, 2] (fun _ => (1 : ℚ))).posteriors ∧
      est'.posteriors.length =
        (init [1, 2] (fun _ => (1 : ℚ))).posteriors.length + 1 ∧
      est'.hypotheses = (init [1, 2] (fun _ => (1 : ℚ))).hypotheses ∧
      est'.priors = (init [1, 2] (fun _ => (1 : ℚ))).priors :=
  update_preserves_past_snapshots (init [1, 2] (fun _ => (1 : ℚ))) [1, 1] [2, 2]
    (by norm_num [init]) (by norm_num)

/-- Claim C4: when some prefix of the rows accumulates at least `p`, the
quantile helper returns the hypothesis of the first row at which the
accumulated probability mass reaches or exceeds `p`. -/
theorem get_quantile_first_reaching
    (rows : List (ℚ × ℚ)) (p : ℚ) (k : ℕ) (hk : k < rows.length)
    (hp0 : 0 ≤ p) (hp1 : p ≤ 1)
    (hreach : p ≤ prefixSum rows (k + 1))
    (hfirst : ∀ j, j < k → prefixSum rows (j + 1) < p) :
    get_quantile rows p = some ((rows.get ⟨k, hk⟩).2) := by
  have := quantileLoop_found p rows 0 k hk (by simpa using hreach)
    (fun j hj => by simpa using hfirst j hj)
  simpa [get_quantile] using this

/-- Witness for C4: on the uniform posterior over ten hypotheses, the 0.95
quantile is the 10th hypothesis (the cumulative mass first reaches 0.95 at
the last row). -/
theorem get_quantile_first_reaching_witness :
    get_quantile uniformRows (19 / 20) = some 10 := by
  have h := get_quantile_first_reaching uniformRows (19 / 20) 9 (by decide)
    (by norm_num) (by norm_num)
    (by norm_num [prefixSum, uniformRows])
    (by intro j hj; interval_cases j <;> norm_num [prefixSum, uniformRows])
  rw [h]
  decide

/-- Claim C5: when the cumulative scan never reaches `p`, the helper
returns the sentinel (`np.nan`, modelled as the `none` value since `nan`
is distinct from every real number), which is never equal to `some q` for
any real hypothesis value `q`. -/
theorem get_quantile_fallthrough_distinct
    (rows : List (ℚ × ℚ)) (p : ℚ)
    (h : ∀ k, k ≤ rows.length → prefixSum rows k < p) :
    get_quantile rows p = none ∧ ∀ q : ℚ, get_quantile rows p ≠ some q := by
  have hn : get_quantile rows p = none := by
    have := quantileLoop_none p rows 0 (fun k hk => by simpa using h k hk)
    simpa [get_quantile] using this
  exact ⟨hn, fun q hq => by rw [hn] at hq; exact Option.noConfusion hq⟩

/-- Witness for C5 on a distribution whose total mass is below `p`. -/
theorem get_quantile_fallthrough_distinct_witness :
    get_quantile [((1 : ℚ) / 2, 3)] 1 = none ∧
    ∀ q : ℚ, get_quantile [((1 : ℚ) / 2, 3)] 1 ≠ some q :=
  get_quantile_fallthrough_distinct [((1 : ℚ) / 2, 3)] 1
    (by
      intro k hk
      simp only [List.length_cons, List.length_nil] at hk
      interval_cases k <;> norm_num [prefixSum])

/-- The value returned by two successive updates with equal-length
likelihoods: the running posterior times both likelihoods, normalized,
provided the first normalization total is nonzero. -/
lemma two_step_ret (est : BayesianEstimation) (P La Lb : List ℚ)
    (hlast : est.posteriors.getLast? = some P)
    (ha : La.length = P.length) (hb : Lb.length = P.length)
    (hta : (List.zipWith (fun x y => x * y) P La).sum ≠ 0) :
    ((update est La).bind (fun x => update x.1 Lb)).map (fun x => x.2) =
      some ((List.zipWith (fun x y => x * y)
              (List.zipWith (fun x y => x * y) P La) Lb).map
        (fun x => x / (List.zipWith (fun x y => x * y)
              (List.zipWith (fun x y => x * y) P La) Lb).sum)) := by
  have hmula := broadcastMul_of_length_eq P La ha.symm
  rw [update_eq est P La _ hlast hmula]
  rw [Option.some_bind]
  have hlasta : (est.posteriors ++
      [(List.zipWith (fun x y => x * y) P La).map
        (fun x => x / (List.zipWith (fun x y => x * y) P La).sum)]).getLast? =
      some ((List.zipWith (fun x y => x * y) P La).map
        (fun x => x / (List.zipWith (fun x y => x * y) P La).sum)) :=
    List.getLast?_concat _
  have hlena : ((List.zipWith (fun x y => x * y) P La).map
      (fun x => x / (List.zipWith (fun x y => x * y) P La).sum)).length =
      P.length := by
    simp [List.length_zipWith, ha]
  have hmulb := broadcastMul_of_length_eq _ Lb (by rw [hlena, hb])
  rw [update_eq _ _ Lb _ hlasta hmulb]
  simp only [Option.map_some']
  congr 1
  rw [zipWith_map_div, sum_map_div,
    map_div_div _ _ _ hta]

/-- Claim C9: with equal-length likelihoods whose first-step normalization
totals are nonzero (so both updates succeed nondegenerately), applying
`update L1` then `update L2` returns the same final posterior as `update
L2` then `update L1`; and on a concrete estimator the two orders store
different intermediate snapshots after the first update. -/
theorem final_posterior_order_independent
    (est : BayesianEstimation) (P L1 L2 : List ℚ)
    (hlast : est.posteriors.getLast? = some P)
    (h1 : L1.length = P.length) (h2 : L2.length = P.length)
    (ht1 : (List.zipWith (fun x y => x * y) P L1).sum ≠ 0)
    (ht2 : (List.zipWith (fun x y => x * y) P L2).sum ≠ 0) :
    ((update est L1).bind (fun x => update x.1 L2)).map (fun x => x.2) =
      ((update est L2).bind (fun x => update x.1 L1)).map (fun x => x.2) ∧
    (update (init [1, 2] (fun _ => (1 : ℚ))) [1, 0]).map (fun x => x.2) ≠
      (update (init [1, 2] (fun _ => (1 : ℚ))) [0, 1]).map (fun x => x.2) := by
  constructor
  · rw [two_step_ret est P L1 L2 hlast h1 h2 ht1,
      two_step_ret est P L2 L1 hlast h2 h1 ht2,
      zipWith_mul_right_comm]
  · norm_num [update, init, broadcastMul]

/-- Witness for C9 at a concrete estimator and pair of likelihoods. -/
theorem final_posterior_order_independent_witness :
    ((update (init [1, 2] (fun _ => (1 : ℚ))) [1, 1]).bind
        (fun x => update x.1 [2, 2])).map (fun x => x.2) =
      ((update (init [1, 2] (fun _ => (1 : ℚ))) [2, 2]).bind
        (fun x => update x.1 [1, 1])).map (fun x => x.2) ∧
    (update (init [1, 2] (fun _ => (1 : ℚ))) [1, 0]).map (fun x => x.2) ≠
      (update (init [1, 2] (fun _ => (1 : ℚ))) [0, 1]).map (fun x => x.2) :=
  final_posterior_order_independent (init [1, 2] (fun _ => (1 : ℚ)))
    [1, 1] [1, 1] [2, 2] (by norm_num [init]) (by norm_num) (by norm_num)
    (by norm_num) (by norm_num)

/-- Claim C10: zeros are absorbing: if the last stored snapshot assigns
probability 0 to index `i`, then after any run of successful updates with
matching-length likelihoods, every newly appended snapshot also assigns 0
to index `i`, since each is the elementwise product of its predecessor
with a likelihood divided by a scalar. -/
theorem zeros_absorbing
    (Ls : List (List ℚ)) (est est' : BayesianEstimation) (P : List ℚ) (i : ℕ)
    (hlast : est.posteriors.getLast? = some P)
    (hlen : ∀ L ∈ Ls, L.length = P.length)
    (hzero : P[i]? = some 0)
    (hrun : updates est Ls = some est') :
    ∀ s ∈ est'.posteriors.drop est.posteriors.length, s[i]? = some 0 := by
  induction Ls generalizing est P with
  | nil =>
    simp [updates] at hrun
    subst hrun
    simp
  | cons L Ls ih =>
    rw [updates] at hrun
    have hLlen : L.length = P.length := hlen L (List.mem_cons_self L Ls)
    have hmul := broadcastMul_of_length_eq P L hLlen.symm
    rw [update_eq est P L _ hlast hmul] at hrun
    have hrz : ((List.zipWith (fun x y => x * y) P L).map
        (fun x => x / (List.zipWith (fun x y => x * y) P L).sum))[i]? =
        some 0 := by
      rw [List.getElem?_map, zipWith_mul_zero_at P L i hLlen hzero]
      simp
    have hrlen : ((List.zipWith (fun x y => x * y) P L).map
        (fun x => x / (List.zipWith (fun x y => x * y) P L).sum)).length =
        P.length := by
      simp [List.length_zipWith, hLlen]
    have hlasta : ({ est with posteriors := est.posteriors ++
        [(List.zipWith (fun x y => x * y) P L).map
          (fun x => x / (List.zipWith (fun x y => x * y) P L).sum)] } :
        BayesianEstimation).posteriors.getLast? =
        some ((List.zipWith (fun x y => x * y) P L).map
          (fun x => x / (List.zipWith (fun x y => x * y) P L).sum)) :=
    List.getLast?_concat _
    have hlen' : ∀ L' ∈ Ls, L'.length =
        ((List.zipWith (fun x y => x * y) P L).map
          (fun x => x / (List.zipWith (fun x y => x * y) P L).sum)).length :=
      fun L' hL' => by rw [hrlen]; exact hlen L' (List.mem_cons_of_mem L hL')
    have IH := ih _ _ hlasta hlen' hrz hrun
    obtain ⟨tail, htail, _, _⟩ := updates_posteriors_append Ls _ est' hrun
    simp only at htail
    intro s hs
    have hdrop : est'.posteriors.drop est.posteriors.length =
        ((List.zipWith (fun x y => x * y) P L).map
          (fun x => x / (List.zipWith (fun x y => x * y) P L).sum)) :: tail := by
      rw [htail, List.append_assoc]
      simpa using List.drop_left est.posteriors _
    rw [hdrop] at hs
    rcases List.mem_cons.mp hs with hcase | hcase
    · subst hcase; exact hrz
    · apply IH
      have hlen1 : (est.posteriors ++
          [(List.zipWith (fun x y => x * y) P L).map
            (fun x => x / (List.zipWith (fun x y => x * y) P L).sum)]).length =
          est.posteriors.length + 1 := by simp
      have htail' : est'.posteriors.drop (est.posteriors.length + 1) = tail := by
        rw [htail, ← hlen1]
        exact List.drop_left _ _
      simpa [htail'] using hcase

/-- Witness for C10: a prior assigning 0 to the first hypothesis keeps it
at 0 in the snapshot appended by a concrete update. -/
theorem zeros_absorbing_witness :
    ([(0 : ℚ), 1])[0]? = some 0 :=
  zeros_absorbing [[1, 1]]
    (init [1, 2] (fun x => if x = 1 then (0 : ℚ) else 1))
    { hypotheses := [1, 2],
      prior_dist := fun x => if x = 1 then (0 : ℚ) else 1,
      priors := [0, 1], posteriors := [[0, 1], [0, 1]] }
    [0, 1] 0
    (by norm_num [init]) (by decide) (by decide)
    (by norm_num [updates, update, init, broadcastMul])
    [0, 1] (by norm_num [init])

end NotesBayes
